import Mathlib

/-!
Verification of the Dark_Web_Info_gatehrer repository against its design
specification. The Python sources are shallowly embedded as Lean
definitions: the fetcher retry loop and link validation from
`core/onion_scraper.py`, the identity rotation counter from
`core/tor_controller.py`, and the deduplicating encrypted store from
`core/data_manager.py`. External library calls (requests, urllib.parse,
re, hashlib, json, cryptography.fernet, sqlite3) are modelled explicitly
at the granularity the repository code observes them.
-/

namespace DarkWeb

/-! ## Fetcher (`OnionScraper._fetch_url`, onion_scraper.py lines 94-127)

One attempt of the transport either yields an HTTP response (status and
body) or raises a network exception, modelled by the attempt index ↦
outcome function below. -/

/-- Outcome of one `session.get` call: an HTTP response or a raised
network exception carrying a message. -/
inductive Attempt where
  | response (status : Nat) (body : String)
  | netError (msg : String)
deriving DecidableEq

/-- Result of `_fetch_url`: the returned body (status 200), a `None`
return (status 403/404, any other status, or the loop falling through),
or a re-raised exception on the final attempt. -/
inductive FetchOutcome where
  | content (body : String)
  | nothingBack
  | raised (msg : String)
deriving DecidableEq

/-- What a whole `_fetch_url` call did: its outcome, how many
`tor.renew_identity()` calls it made, and how many attempts it consumed. -/
structure FetchResult where
  outcome : FetchOutcome
  rotations : Nat
  attemptsUsed : Nat
deriving DecidableEq

/-- Embeds `self.max_retries = 3` from `OnionScraper.__init__`. -/
def max_retries : Nat := 3

/-- The retry loop of `_fetch_url`. `fuel` is the number of loop
iterations remaining (`range(self.max_retries)` starts with
`fuel = maxRetries`), `attempt` the current index, `rot` the rotation
count so far. Status 200 returns the body; status 403/404 and every
other non-200 status return `None` at once (the source only differs in
what it prints); an exception re-raises on the last attempt and
otherwise sleeps, rotates identity and retries. -/
def fetchAux (t : Nat → Attempt) (maxRetries : Nat) :
    Nat → Nat → Nat → FetchResult
  | 0, attempt, rot => ⟨FetchOutcome.nothingBack, rot, attempt⟩
  | fuel + 1, attempt, rot =>
    match t attempt with
    | Attempt.response status body =>
      if status = 200 then ⟨FetchOutcome.content body, rot, attempt + 1⟩
      else ⟨FetchOutcome.nothingBack, rot, attempt + 1⟩
    | Attempt.netError msg =>
      if attempt = maxRetries - 1 then ⟨FetchOutcome.raised msg, rot, attempt + 1⟩
      else fetchAux t maxRetries fuel (attempt + 1) (rot + 1)

/-- Runs `_fetch_url` against a transport `t`. -/
def fetch_url (t : Nat → Attempt) : FetchResult :=
  fetchAux t max_retries max_retries 0 0

/-- Transport that raises a network error on the first two attempts and
serves status 200 on the third (the mock the spec uses for the retry test). -/
def failTwiceTransport : Nat → Attempt := fun n =>
  if n < 2 then Attempt.netError ("refused " ++ toString n)
  else Attempt.response 200 "page"

/-- Transport that always answers HTTP 404. -/
def always404Transport : Nat → Attempt := fun _ => Attempt.response 404 ""

/-- Transport that always answers HTTP 500 (a status that is neither
200 nor 403/404). -/
def always500Transport : Nat → Attempt := fun _ => Attempt.response 500 "boom"

/-! ## Link validation (`_validate_onion_url`, `_is_blacklisted`,
onion_scraper.py lines 149-179)

URLs are embedded as `List Char`. `urlparse` from `urllib.parse` is
modelled for absolute URLs containing `://`: the scheme is the text
before `://` (lower-cased, as urlparse does) and the netloc the text
after it up to the first `/`. -/

/-- Split a character list at the first occurrence of `pat`, returning
the text before it and the text after it. -/
def breakOnSub (pat : List Char) : List Char → Option (List Char × List Char)
  | [] => none
  | c :: cs =>
    if pat.isPrefixOf (c :: cs) then some ([], (c :: cs).drop pat.length)
    else
      match breakOnSub pat cs with
      | some (pre, post) => some (c :: pre, post)
      | none => none

/-- Scheme and netloc of a URL, as `urllib.parse.urlparse` yields them
for the absolute `scheme://netloc/...` URLs the scraper handles. -/
def urlparse (url : List Char) : List Char × List Char :=
  match breakOnSub ("://".data) url with
  | some (scheme, rest) => (scheme.map Char.toLower, rest.takeWhile (fun c => !(c == '/')))
  | none => ([], [])

/-- Embeds `_validate_onion_url`: scheme http/https, netloc ends in `.onion`,
and the netloc is exactly 22 characters (16-character v2 address plus
`.onion`). -/
def validate_onion_url (url : List Char) : Bool :=
  let parsed := urlparse url
  (parsed.1 == "http".data || parsed.1 == "https".data) &&
    (".onion".data.isSuffixOf parsed.2) &&
    (parsed.2.length == 22)

/-- The file-extension blacklist of `OnionScraper.__init__`. Each regex
`\.ext$` is modelled as the suffix it matches. -/
def blacklistSuffixes : List (List Char) :=
  [".exe".data, ".zip".data, ".rar".data, ".tar".data, ".gz".data,
   ".mp3".data, ".mp4".data, ".avi".data, ".mkv".data, ".pdf".data]

/-- Embeds `_is_blacklisted`: some blacklist pattern matches the lower-cased
URL. -/
def is_blacklisted (url : List Char) : Bool :=
  blacklistSuffixes.any (fun pat => pat.isSuffixOf (url.map Char.toLower))

/-! ## Search (`OnionScraper.search`, onion_scraper.py lines 44-65) -/

/-- An item dict as produced by the scraper and consumed by
`DataManager.save`: the `type`, `title`, `url` and `content` keys (the
only ones `save` reads). -/
structure Item where
  itemType : String
  title : String
  url : String
  content : String
deriving DecidableEq

/-- Single-quote character, used in the simulated search titles. -/
def squote : String := "\x27"

/-- One simulated search result; `rand` stands for the
`random.randint(1,100)` draw used in the URL. -/
def searchResultItem (query : String) (rand : Nat) (i : Nat) : Item :=
  { itemType := "search_result"
  , title := "Result for " ++ squote ++ query ++ squote ++ " #" ++ toString (i + 1)
  , url := "http://simulated" ++ toString rand ++ ".onion"
  , content := "Sample content containing " ++ query }

/-- Embeds `OnionScraper.search`: fabricates `min(max_results, 5)` simulated
results; `rand` supplies the random draw of each iteration. -/
def search (query : String) (maxResults : Nat) (rand : Nat → Nat) : List Item :=
  (List.range (min maxResults 5)).map (fun i => searchResultItem query (rand i) i)

/-- The CLI bound from `DarkWebGatherer._search_services` (main.py line
96): `min(max(int(max_results), 10), 100)`. -/
def clampMaxResults (n : Int) : Int := min (max n 10) 100

/-! ## Crawl engine (`OnionScraper.scrape` / `_crawl`, onion_scraper.py
lines 26-92)

The page fetch plus extraction step (`_fetch_url`, `_extract_page_data`,
`_extract_links`) is abstracted as a page graph `g` mapping a URL to the
page item extracted there together with the filtered outbound links, or
`none` when `_fetch_url` yields no content or the node fails. -/

/-- Page graph: what fetching and parsing one URL produces. -/
abbrev PageGraph := List Char → Option (Item × List (List Char))

/-- The mutable state of `_crawl`: `self.visited_urls` and the shared
`results` list. -/
structure CrawlState where
  visitedUrls : List (List Char)
  results : List Item
deriving DecidableEq

/-- Embeds `_crawl(url, depth, results, current_depth)`. The recursion is
driven by `fuel`; every call made by the source keeps
`fuel = depth + 1 - current_depth > 0`, so the fuel-exhausted branch is
never taken and the function equals the unbounded recursion of the source.
A URL beyond the depth bound or already visited returns at once; an
unfetchable URL is abandoned; otherwise the page item is appended and,
strictly below the depth bound, each extracted link is expanded at
`current_depth + 1`. -/
def crawlAux (g : PageGraph) (depth : Nat) :
    Nat → List Char → Nat → CrawlState → CrawlState
  | 0, _, _, st => st
  | fuel + 1, url, cd, st =>
    if cd > depth || st.visitedUrls.contains url then st
    else
      let st1 : CrawlState := ⟨url :: st.visitedUrls, st.results⟩
      match g url with
      | none => st1
      | some (item, links) =>
        let st2 : CrawlState := ⟨st1.visitedUrls, st1.results ++ [item]⟩
        if cd < depth then
          links.foldl (fun s l => crawlAux g depth fuel l (cd + 1) s) st2
        else st2

/-- Embeds `OnionScraper.scrape`: validates the seed (raising `ValueError`,
modelled as `none`, when out of scope), clears the visited set and
crawls from depth 0. -/
def scrape (g : PageGraph) (url : List Char) (depth : Nat) :
    Option (List Item) :=
  if validate_onion_url url then
    some (crawlAux g depth (depth + 1) url 0 ⟨[], []⟩).results
  else none

/-- Reachability in the page graph: `ReachLe g u n w` says `w` is
reachable from `u` in at most `n` link-hops. -/
inductive ReachLe (g : PageGraph) : List Char → Nat → List Char → Prop
  | here (u : List Char) (n : Nat) : ReachLe g u n u
  | step (u v w : List Char) (n : Nat) (item : Item) (links : List (List Char)) :
      g u = some (item, links) → v ∈ links → ReachLe g v n w →
      ReachLe g u (n + 1) w

/-- An item is sound for `g`, `seed`, `depth` when some URL within
`depth` hops of the seed yields it. -/
def ItemSound (g : PageGraph) (seed : List Char) (depth : Nat) (it : Item) : Prop :=
  ∃ u n links, n ≤ depth ∧ ReachLe g seed n u ∧ g u = some (it, links)

/-! ## Data manager (`core/data_manager.py`)

The SQLite database is embedded as the two tables the schema of
`_init_db` creates. The autoincrement `id` column is dropped from the
model; the `timestamp DATETIME DEFAULT CURRENT_TIMESTAMP` column is
modelled by the clock value `now` passed to each `save` call. The
external hash (`hashlib.sha256(...).hexdigest()`) and JSON codec
(`json.dumps` / `json.loads`) are abstract function parameters, since
the repository code only ever applies them. -/

/-- One row of the `collected_data` table. -/
structure StoredRecord where
  data_type : String
  title : String
  url : String
  content : Option (List Nat)
  timestamp : Nat
  source_hash : String
  is_sensitive : Nat
deriving DecidableEq

/-- One row of the `scan_metadata` table. `domains_scanned` is modelled
as the list that the source comma-joins; `scan_end` is never written by
`save` and is omitted. -/
structure ScanMeta where
  scan_start : Nat
  items_collected : Nat
  domains_scanned : List (List Char)
deriving DecidableEq

/-- The database contents. -/
structure DB where
  collected_data : List StoredRecord
  scan_metadata : List ScanMeta
deriving DecidableEq

/-- The freshly created database (`_init_db` on a new file). -/
def emptyDB : DB := ⟨[], []⟩

/-- Modelled from the spec: the external `cryptography.fernet` cipher is
an invertible authenticated token encoding under a symmetric key; a
token is rejected (`InvalidToken`) when malformed or produced under a
different key. Keys and bytes are `Nat`s; the leading `128` plays the
version byte of the Fernet token format. -/
def fernetEncrypt (key : Nat) (bs : List Nat) : List Nat :=
  128 :: key :: bs.map (fun b => b + key)

/-- Modelled from the spec: Fernet decryption, the inverse of
`fernetEncrypt`; `none` is the `InvalidToken` failure. -/
def fernetDecrypt (key : Nat) (tok : List Nat) : Option (List Nat) :=
  match tok with
  | 128 :: k :: rest => if k = key then some (rest.map (fun b => b - key)) else none
  | _ => none

/-- Python `str.encode()`, modelled as the codepoint sequence. -/
def strEncode (s : String) : List Nat := s.data.map Char.toNat

/-- Python `bytes.decode()`, the inverse of `strEncode`. -/
def strDecode (bs : List Nat) : String := ⟨bs.map Char.ofNat⟩

/-- Embeds `DataManager._encrypt_data`: encode a string and encrypt it
with the cipher of the manager. -/
def encrypt_data (key : Nat) (s : String) : List Nat :=
  fernetEncrypt key (strEncode s)

/-- Embeds `DataManager._decrypt_data`: decrypt and decode; `none` is the
raised exception. -/
def decrypt_data (key : Nat) (tok : List Nat) : Option String :=
  (fernetDecrypt key tok).map strDecode

/-- Python `url.split('/')`, character-list version. -/
def splitOnChar (sep : Char) : List Char → List (List Char)
  | [] => [[]]
  | c :: cs =>
    let rest := splitOnChar sep cs
    if c = sep then [] :: rest
    else
      match rest with
      | r :: rs => (c :: r) :: rs
      | [] => [[c]]

/-- Extracts the domain as `save` does, splitting the url on slashes
and taking index 2: `none` models the
`IndexError` that the per-item `except` swallows. -/
def domainOf (url : String) : Option (List Char) :=
  (splitOnChar '/' url.data).get? 2

/-- Python `s[:n]`. -/
def strTake (n : Nat) (s : String) : String := ⟨s.data.take n⟩

/-- The in-loop accumulator of `save`: the connection's view of the
database, the `domains` set (modelled in insertion order) and
`saved_count`. -/
structure SaveState where
  db : DB
  domains : List (List Char)
  saved_count : Nat
deriving DecidableEq

/-- `INSERT OR IGNORE INTO collected_data`: the row is dropped when an
existing row holds the same `url` or the same `source_hash` (the two
UNIQUE columns); the returned number is `cursor.rowcount`. -/
def insertOrIgnore (db : DB) (r : StoredRecord) : DB × Nat :=
  if db.collected_data.any (fun x => x.url == r.url || x.source_hash == r.source_hash) then
    (db, 0)
  else
    (⟨db.collected_data ++ [r], db.scan_metadata⟩, 1)

/-- The body of the per-item loop of `DataManager.save` (lines 103-135):
hash `url + str(content)`, encrypt non-empty content, extract the
domain (an `IndexError` there skips the item via the `except`), record
the domain, and insert-or-ignore the row. -/
def saveItem (hash : String → String) (dumps : String → String) (key : Nat)
    (now : Nat) (st : SaveState) (item : Item) : SaveState :=
  let content_hash := hash (item.url ++ item.content)
  let encrypted : Option (List Nat) :=
    if item.content = "" then none else some (encrypt_data key (dumps item.content))
  match domainOf item.url with
  | none => st
  | some d =>
    let domains := if st.domains.contains d then st.domains else st.domains ++ [d]
    let row : StoredRecord :=
      { data_type := item.itemType
      , title := strTake 500 item.title
      , url := item.url
      , content := encrypted
      , timestamp := now
      , source_hash := content_hash
      , is_sensitive := 0 }
    let inserted := insertOrIgnore st.db row
    ⟨inserted.1, domains, st.saved_count + inserted.2⟩

/-- `DataManager.save`: `False` at once on an empty batch; otherwise
process every item, append one `scan_metadata` row (scan start, saved
count, first 10 domains) and return whether anything was saved. -/
def save (hash : String → String) (dumps : String → String) (key : Nat)
    (now : Nat) (db : DB) (items : List Item) : DB × Bool :=
  if items.isEmpty then (db, false)
  else
    let st := items.foldl (saveItem hash dumps key now) ⟨db, [], 0⟩
    let meta : ScanMeta :=
      { scan_start := now
      , items_collected := st.saved_count
      , domains_scanned := st.domains.take 10 }
    (⟨st.db.collected_data, st.db.scan_metadata ++ [meta]⟩, decide (0 < st.saved_count))

/-- A sequence of `save` calls against one database, each with its own
clock reading, starting from the fresh database. -/
def runSaves (hash : String → String) (dumps : String → String) (key : Nat)
    (batches : List (Nat × List Item)) : DB :=
  batches.foldl (fun db b => (save hash dumps key b.1 db b.2).1) emptyDB

/-- Number of `collected_data` rows carrying a given fingerprint. -/
def hashCount (db : DB) (h : String) : Nat :=
  (db.collected_data.filter (fun r => r.source_hash == h)).length

/-! ### `DataManager.load` (lines 153-180) -/

/-- The `content` field of a loaded row: left as the raw column value,
or replaced by the decrypted-and-parsed text. -/
inductive LoadedContent where
  | raw (b : Option (List Nat))
  | text (s : String)
deriving DecidableEq

/-- A row as `load` returns it. -/
structure LoadedRecord where
  data_type : String
  title : String
  url : String
  content : LoadedContent
  timestamp : Nat
  source_hash : String
deriving DecidableEq

/-- The sentinel `load` substitutes when decryption fails. -/
def sentinel : String := "[ENCRYPTED CONTENT]"

/-- The `ORDER BY timestamp DESC` comparison. -/
def newestFirst (a b : StoredRecord) : Bool := decide (b.timestamp ≤ a.timestamp)

/-- Insert a row into a list already sorted newest-first, keeping it
sorted (rows with equal timestamps are returned in an order the SQL
leaves unspecified). -/
def insertDesc (r : StoredRecord) : List StoredRecord → List StoredRecord
  | [] => [r]
  | x :: xs => if newestFirst r x then r :: x :: xs else x :: insertDesc r xs

/-- Sort rows newest-first (insertion sort). -/
def sortDesc : List StoredRecord → List StoredRecord
  | [] => []
  | x :: xs => insertDesc x (sortDesc xs)

/-- `SELECT * FROM collected_data ORDER BY timestamp DESC LIMIT ?`. -/
def loadRows (db : DB) (limit : Nat) : List StoredRecord :=
  (sortDesc db.collected_data).take limit

/-- The per-row body of `load`: when decryption is requested and the
content column is truthy (non-NULL and non-empty), decrypt and
JSON-parse it, substituting the sentinel if either step raises; the
whole try/except never escapes the row. -/
def loadRow (loads : String → Option String) (key : Nat) (dec : Bool)
    (r : StoredRecord) : LoadedRecord :=
  let content :=
    match dec, r.content with
    | true, some blob =>
      if blob.isEmpty then LoadedContent.raw (some blob)
      else
        match decrypt_data key blob with
        | some s =>
          match loads s with
          | some v => LoadedContent.text v
          | none => LoadedContent.text sentinel
        | none => LoadedContent.text sentinel
    | _, b => LoadedContent.raw b
  ⟨r.data_type, r.title, r.url, content, r.timestamp, r.source_hash⟩

/-- `DataManager.load(limit, decrypt_content)`. -/
def load (loads : String → Option String) (key : Nat) (db : DB)
    (limit : Nat) (dec : Bool) : List LoadedRecord :=
  (loadRows db limit).map (loadRow loads key dec)

/-! ### `DataManager.wipe` (lines 235-251) -/

/-- The two artifacts `wipe` touches: the database file and the key
file, each `some` bytes when present. -/
structure FS where
  store : Option (List Nat)
  keyFile : Option (List Nat)
deriving DecidableEq

/-- One observable filesystem action of `wipe`: the truncation performed
by opening the store in `wb` mode, a write of the given bytes to it, and
the two removals. -/
inductive WipeEvent where
  | truncateStore
  | writeStore (bytes : List Nat)
  | deleteStore
  | deleteKey
deriving DecidableEq

/-- Size in bytes of a file, `none` (absent) having size 0. -/
def fileSize (f : Option (List Nat)) : Nat :=
  match f with
  | some c => c.length
  | none => 0

/-- Embeds `DataManager.wipe`. When the database file exists the source
runs `open(self.db_name, 'wb')` — which truncates the file to zero
bytes — and only then evaluates
`f.write(os.urandom(os.path.getsize(self.db_name)))`, so the size it
reads is the post-truncation size and the write is of `rnd 0` bytes
(`os.urandom(0)` is the empty byte string); then it removes the store,
then removes the key file when it exists. The event trace records the
actions in order; the try/except makes the modelled happy path total,
returning `True`. -/
def wipe (rnd : Nat → List Nat) (fs : FS) : FS × List WipeEvent × Bool :=
  let p1 : FS × List WipeEvent :=
    match fs.store with
    | some _ =>
      let truncated : FS := ⟨some [], fs.keyFile⟩
      let written := rnd (fileSize truncated.store)
      let overwritten : FS := ⟨some written, truncated.keyFile⟩
      (⟨none, overwritten.keyFile⟩,
        [WipeEvent.truncateStore, WipeEvent.writeStore written, WipeEvent.deleteStore])
    | none => (fs, [])
  let p2 : FS × List WipeEvent :=
    match p1.1.keyFile with
    | some _ => (⟨p1.1.store, none⟩, p1.2 ++ [WipeEvent.deleteKey])
    | none => (p1.1, p1.2)
  (p2.1, p2.2, true)

/-! ## Concrete fixtures used to instantiate the theorems -/

/-- A seed whose netloc is exactly 22 characters, so it passes
`_validate_onion_url`. -/
def seedUrl : String := "http://aaaaaaaaaaaaaaaa.onion"

/-- A second in-scope URL, linked from the seed in the demo graph. -/
def childUrl : String := "http://bbbbbbbbbbbbbbbb.onion"

/-- The item the demo graph serves at the seed. -/
def seedItem : Item := ⟨"page", "Seed", seedUrl, "hello"⟩

/-- The item the demo graph serves one hop from the seed. -/
def childItem : Item := ⟨"page", "Child", childUrl, "world"⟩

/-- A two-node page graph: the seed links to the child, the child is a
leaf, and every other URL fails to fetch. -/
def demoGraph : PageGraph := fun u =>
  if u == seedUrl.data then some (seedItem, [childUrl.data])
  else if u == childUrl.data then some (childItem, [])
  else none

/-- An identity stand-in for the abstract hash parameter. -/
def idHash : String → String := fun s => s

/-- An identity stand-in for the abstract `json.dumps` parameter. -/
def idDumps : String → String := fun s => s

/-- A `json.loads` stand-in that accepts every string. -/
def okLoads : String → Option String := fun s => some s

/-- A concrete item whose URL has a well-formed `scheme://host/path`
shape, so domain extraction succeeds. -/
def demoItem : Item := ⟨"page", "T", "http://aaaaaaaaaaaaaaaa.onion/p", "c"⟩

/-- A stored row whose content blob is not a valid cipher token, so
decryption of it fails. -/
def badRecord : StoredRecord := ⟨"page", "T", "u", some [9], 5, "h", 0⟩

/-- A database holding only `badRecord`. -/
def badDB : DB := ⟨[badRecord], []⟩

/-! ## Theorems -/

/-- C3: against a transport that raises a network error on the first two
attempts and serves the page on the third, `_fetch_url` returns the
success content after exactly 2 identity rotations; against a transport
that always answers 404 it returns `None` (the `NotAvailable` outcome)
after a single attempt with zero rotations. -/
theorem fetch_mock_transport_behavior :
    fetch_url failTwiceTransport = ⟨FetchOutcome.content "page", 2, 3⟩
    ∧ fetch_url always404Transport = ⟨FetchOutcome.nothingBack, 0, 1⟩ := by
  exact ⟨by decide, by decide⟩

/-- C2 counterexample: a transport that always answers HTTP 500 — a
status that is neither 200 nor 403/404 — is not retried: `_fetch_url`
consumes one attempt, performs zero identity rotations, and returns
`None` instead of exhausting the 3-attempt budget with a raised cause,
contrary to the claim. -/
theorem fetch_status_retry_counterexample :
    fetch_url always500Transport = ⟨FetchOutcome.nothingBack, 0, 1⟩
    ∧ (fetch_url always500Transport).attemptsUsed ≠ max_retries
    ∧ (fetch_url always500Transport).outcome ≠ FetchOutcome.raised "boom" := by
  exact ⟨by decide, by decide, by decide⟩

/-- C2 amended: only a fetch attempt that hits a network error is
retried: with every attempt raising, `_fetch_url` exhausts the 3-attempt
budget, rotating identity between retries (2 rotations), and re-raises
the last observed cause; an HTTP status other than 200 — including
statuses that are neither 403 nor 404 — makes it return `None`
immediately after that single attempt, with no retry and no rotation. -/
theorem fetch_retry_amended (t : Nat → Attempt) :
    ((∀ i, i < max_retries → ∃ msg, t i = Attempt.netError msg) →
      ∃ msg, t (max_retries - 1) = Attempt.netError msg
        ∧ fetch_url t = ⟨FetchOutcome.raised msg, max_retries - 1, max_retries⟩)
    ∧ (∀ status body, t 0 = Attempt.response status body → status ≠ 200 →
        fetch_url t = ⟨FetchOutcome.nothingBack, 0, 1⟩) := by
  constructor
  · intro h
    obtain ⟨m0, h0⟩ := h 0 (by decide)
    obtain ⟨m1, h1⟩ := h 1 (by decide)
    obtain ⟨m2, h2⟩ := h 2 (by decide)
    refine ⟨m2, h2, ?_⟩
    simp [fetch_url, max_retries, fetchAux, h0, h1, h2]
  · intro status body h0 hne
    simp [fetch_url, max_retries, fetchAux, h0, hne]

/-- Witness for the amended C2 theorem at concrete transports. -/
theorem fetch_retry_amended_witness :
    fetch_url (fun _ => Attempt.netError "down")
      = ⟨FetchOutcome.raised "down", max_retries - 1, max_retries⟩
    ∧ fetch_url always500Transport = ⟨FetchOutcome.nothingBack, 0, 1⟩ := by
  constructor
  · obtain ⟨msg, hmsg, hres⟩ :=
      (fetch_retry_amended (fun _ => Attempt.netError "down")).1
        (fun _ _ => ⟨"down", rfl⟩)
    simp only [Attempt.netError.injEq] at hmsg
    rw [← hmsg] at hres
    exact hres
  · exact (fetch_retry_amended always500Transport).2 500 "boom" rfl (by decide)

/-- C4 counterexample: the URL the claim says is accepted is rejected by
`_validate_onion_url`: its netloc `abcdefghijklmnopqrstu.onion` has 27
characters, not the 22 the check requires. -/
theorem link_validation_counterexample :
    validate_onion_url ("http://abcdefghijklmnopqrstu.onion/x".data) = false
    ∧ ("abcdefghijklmnopqrstu.onion".data).length = 27 := by
  exact ⟨by decide, by decide⟩

/-- C4 amended: validation accepts a URL whose netloc is exactly 22
characters (`http://abcdefghijklmnop.onion/x`), rejects the claimed
27-character-netloc URL, rejects `http://short.onion/x` and
`https://example.com/x` as out of scope, and `.exe` URLs are rejected by
the file-extension blacklist (such a URL with a valid 22-character
netloc passes validation but is blacklisted). -/
theorem link_validation_amended :
    validate_onion_url ("http://abcdefghijklmnop.onion/x".data) = true
    ∧ validate_onion_url ("http://short.onion/x".data) = false
    ∧ validate_onion_url ("https://example.com/x".data) = false
    ∧ validate_onion_url ("http://abcdefghijklmnopqrstu.onion/x".data) = false
    ∧ validate_onion_url ("http://abcdefghijklmnop.onion/file.exe".data) = true
    ∧ is_blacklisted ("http://abcdefghijklmnop.onion/file.exe".data) = true
    ∧ is_blacklisted ("http://abcdefghijklmnopqrstu.onion/file.exe".data) = true
    ∧ is_blacklisted ("http://abcdefghijklmnop.onion/x".data) = false := by
  refine ⟨by decide, by decide, by decide, by decide, by decide, by decide, by decide, by decide⟩

/-- C8: decrypting the encryption of any content string with the same
key yields the string back, for every string including the empty one. -/
theorem encrypt_decrypt_roundtrip (key : Nat) (x : String) :
    decrypt_data key (encrypt_data key x) = some x := by
  simp [decrypt_data, encrypt_data, fernetEncrypt, fernetDecrypt, strEncode, strDecode,
    List.map_map, Function.comp_def, Nat.add_sub_cancel, Char.ofNat_toNat]

/-- C9: evaluated at a store file holding two bytes (key file present),
`wipe` truncates the store, writes the empty byte string — because the
size is read only after the `wb`-open already truncated the file — then
deletes the store and the key. No event writes random bytes of the
original size: the overwrite-before-delete the claim (and the comment in
the source) promises never happens, though both artifacts do end up
absent and a fresh store loads empty. The random source is instantiated
with a function satisfying the `os.urandom` contract of returning
exactly `n` bytes. -/
theorem wipe_truncates_without_random_overwrite :
    (wipe (fun n => List.replicate n 0) ⟨some [1, 2], some [3]⟩).2.1
      = [WipeEvent.truncateStore, WipeEvent.writeStore [], WipeEvent.deleteStore,
          WipeEvent.deleteKey]
    ∧ (WipeEvent.writeStore (List.replicate 2 0)
        ∉ (wipe (fun n => List.replicate n 0) ⟨some [1, 2], some [3]⟩).2.1)
    ∧ (wipe (fun n => List.replicate n 0) ⟨some [1, 2], some [3]⟩).1.store = none
    ∧ (wipe (fun n => List.replicate n 0) ⟨some [1, 2], some [3]⟩).1.keyFile = none
    ∧ load okLoads 0 emptyDB 100 true = [] :=
  ⟨by decide, by decide, by decide, by decide, rfl⟩

/-- A row survives `insertOrIgnore` with the fingerprint column still
free of duplicates. -/
theorem insertOrIgnore_hashes {db : DB} {r : StoredRecord}
    (h : (db.collected_data.map StoredRecord.source_hash).Nodup) :
    ((insertOrIgnore db r).1.collected_data.map StoredRecord.source_hash).Nodup := by
  unfold insertOrIgnore
  by_cases hc : (db.collected_data.any fun x =>
      x.url == r.url || x.source_hash == r.source_hash) = true
  · simp only [hc, if_true]
    exact h
  · rw [Bool.not_eq_true] at hc
    simp only [hc, Bool.false_eq_true, if_false]
    have hmem : r.source_hash ∉ db.collected_data.map StoredRecord.source_hash := by
      intro hm
      obtain ⟨x, hx, hfx⟩ := List.mem_map.mp hm
      rw [List.any_eq_false] at hc
      have hfalse := hc x hx
      simp [hfx] at hfalse
    simp [List.nodup_append, h, hmem]

/-- `insertOrIgnore` never touches the metadata table. -/
theorem insertOrIgnore_meta (db : DB) (r : StoredRecord) :
    (insertOrIgnore db r).1.scan_metadata = db.scan_metadata := by
  unfold insertOrIgnore
  by_cases hc : (db.collected_data.any fun x =>
      x.url == r.url || x.source_hash == r.source_hash) = true
  · simp [hc]
  · rw [Bool.not_eq_true] at hc
    simp [hc]

/-- `insertOrIgnore` grows the table by exactly its reported row
count. -/
theorem insertOrIgnore_len (db : DB) (r : StoredRecord) :
    (insertOrIgnore db r).1.collected_data.length
      = db.collected_data.length + (insertOrIgnore db r).2 := by
  unfold insertOrIgnore
  by_cases hc : (db.collected_data.any fun x =>
      x.url == r.url || x.source_hash == r.source_hash) = true
  · simp [hc]
  · rw [Bool.not_eq_true] at hc
    simp [hc]

/-- One `save`-loop iteration keeps the fingerprint column
duplicate-free. -/
theorem saveItem_hashes {hash dumps : String → String} {key now : Nat}
    {st : SaveState} {item : Item}
    (h : (st.db.collected_data.map StoredRecord.source_hash).Nodup) :
    ((saveItem hash dumps key now st item).db.collected_data.map
        StoredRecord.source_hash).Nodup := by
  unfold saveItem
  cases hdom : domainOf item.url with
  | none => exact h
  | some d => exact insertOrIgnore_hashes h

/-- One `save`-loop iteration leaves the metadata table alone. -/
theorem saveItem_meta (hash dumps : String → String) (key now : Nat)
    (st : SaveState) (item : Item) :
    (saveItem hash dumps key now st item).db.scan_metadata = st.db.scan_metadata := by
  unfold saveItem
  cases hdom : domainOf item.url with
  | none => rfl
  | some d => exact insertOrIgnore_meta st.db _

/-- One `save`-loop iteration grows the table by exactly what it adds to
`saved_count`. -/
theorem saveItem_len (hash dumps : String → String) (key now : Nat)
    (st : SaveState) (item : Item) :
    (saveItem hash dumps key now st item).db.collected_data.length + st.saved_count
      = st.db.collected_data.length + (saveItem hash dumps key now st item).saved_count := by
  unfold saveItem
  cases hdom : domainOf item.url with
  | none => rfl
  | some d =>
    simp only []
    rw [insertOrIgnore_len]
    omega

/-- A domain recorded by one `save`-loop iteration was already recorded
or comes from the item processed. -/
theorem saveItem_domains (hash dumps : String → String) (key now : Nat)
    (st : SaveState) (item : Item) :
    ∀ d ∈ (saveItem hash dumps key now st item).domains,
      d ∈ st.domains ∨ domainOf item.url = some d := by
  intro d hd
  unfold saveItem at hd
  cases hdom : domainOf item.url with
  | none =>
    rw [hdom] at hd
    exact Or.inl hd
  | some d0 =>
    rw [hdom] at hd
    simp only [] at hd
    by_cases hc : st.domains.contains d0 = true
    · rw [if_pos hc] at hd
      exact Or.inl hd
    · rw [if_neg hc] at hd
      rcases List.mem_append.mp hd with h | h
      · exact Or.inl h
      · have hdd : d = d0 := List.mem_singleton.mp h
        subst hdd
        exact Or.inr rfl

/-- The whole `save` loop keeps the fingerprint column
duplicate-free. -/
theorem foldl_saveItem_hashes (hash dumps : String → String) (key now : Nat) :
    ∀ (items : List Item) (st : SaveState),
      (st.db.collected_data.map StoredRecord.source_hash).Nodup →
      ((items.foldl (saveItem hash dumps key now) st).db.collected_data.map
          StoredRecord.source_hash).Nodup := by
  intro items
  induction items with
  | nil => intro st h; exact h
  | cons hd tl ih => intro st h; exact ih _ (saveItem_hashes h)

/-- The whole `save` loop leaves the metadata table alone. -/
theorem foldl_saveItem_meta (hash dumps : String → String) (key now : Nat) :
    ∀ (items : List Item) (st : SaveState),
      (items.foldl (saveItem hash dumps key now) st).db.scan_metadata
        = st.db.scan_metadata := by
  intro items
  induction items with
  | nil => intro st; rfl
  | cons hd tl ih =>
    intro st
    rw [List.foldl_cons, ih, saveItem_meta]

/-- The whole `save` loop grows the table by exactly the count it
reports. -/
theorem foldl_saveItem_len (hash dumps : String → String) (key now : Nat) :
    ∀ (items : List Item) (st : SaveState),
      (items.foldl (saveItem hash dumps key now) st).db.collected_data.length
          + st.saved_count
        = st.db.collected_data.length
          + (items.foldl (saveItem hash dumps key now) st).saved_count := by
  intro items
  induction items with
  | nil => intro st; rfl
  | cons hd tl ih =>
    intro st
    have h1 := saveItem_len hash dumps key now st hd
    have h2 := ih (saveItem hash dumps key now st hd)
    simp only [List.foldl_cons]
    omega

/-- Every domain the `save` loop records comes from some processed
item. -/
theorem foldl_saveItem_domains (hash dumps : String → String) (key now : Nat) :
    ∀ (items : List Item) (st : SaveState) (d : List Char),
      d ∈ (items.foldl (saveItem hash dumps key now) st).domains →
      d ∈ st.domains ∨ ∃ it ∈ items, domainOf it.url = some d := by
  intro items
  induction items with
  | nil => intro st d h; exact Or.inl h
  | cons hd tl ih =>
    intro st d h
    rw [List.foldl_cons] at h
    rcases ih _ d h with h' | ⟨it, hit, hd'⟩
    · rcases saveItem_domains hash dumps key now st hd d h' with h'' | hdom
      · exact Or.inl h''
      · exact Or.inr ⟨hd, List.mem_cons_self hd tl, hdom⟩
    · exact Or.inr ⟨it, List.mem_cons_of_mem _ hit, hd'⟩

/-- A whole `save` call keeps the fingerprint column duplicate-free. -/
theorem save_hashes {hash dumps : String → String} {key now : Nat}
    {db : DB} {items : List Item}
    (h : (db.collected_data.map StoredRecord.source_hash).Nodup) :
    ((save hash dumps key now db items).1.collected_data.map
        StoredRecord.source_hash).Nodup := by
  unfold save
  by_cases he : items.isEmpty = true
  · simp only [he, if_true]
    exact h
  · rw [Bool.not_eq_true] at he
    simp only [he, Bool.false_eq_true, if_false]
    exact foldl_saveItem_hashes hash dumps key now items ⟨db, [], 0⟩ h

/-- Any sequence of `save` calls starting from the fresh database keeps
the fingerprint column duplicate-free. -/
theorem runSaves_hashes (hash dumps : String → String) (key : Nat)
    (batches : List (Nat × List Item)) :
    ((runSaves hash dumps key batches).collected_data.map
        StoredRecord.source_hash).Nodup := by
  unfold runSaves
  have hgen : ∀ (bs : List (Nat × List Item)) (db : DB),
      (db.collected_data.map StoredRecord.source_hash).Nodup →
      ((bs.foldl (fun db b => (save hash dumps key b.1 db b.2).1) db).collected_data.map
          StoredRecord.source_hash).Nodup := by
    intro bs
    induction bs with
    | nil => intro db h; exact h
    | cons hd tl ih => intro db h; exact ih _ (save_hashes h)
  exact hgen batches emptyDB (by simp [emptyDB])

/-- A duplicate-free fingerprint column bounds the row count of every
fingerprint by one. -/
theorem hashCount_le_one {db : DB}
    (h : (db.collected_data.map StoredRecord.source_hash).Nodup) (s : String) :
    hashCount db s ≤ 1 := by
  have hcount := List.nodup_iff_count_le_one.mp h s
  unfold hashCount
  calc (db.collected_data.filter fun r => r.source_hash == s).length
      = List.countP (fun r => r.source_hash == s) db.collected_data :=
        (List.countP_eq_length_filter _ _).symm
    _ = List.countP (fun x => x == s) (db.collected_data.map StoredRecord.source_hash) := by
        rw [List.countP_map]
        rfl
    _ = (db.collected_data.map StoredRecord.source_hash).count s := rfl
    _ ≤ 1 := hcount

/-- Saving the same item twice into a database free of conflicts for it
adds exactly one row. -/
theorem save_twice_lemma (hash dumps : String → String) (key now : Nat)
    (db : DB) (item : Item)
    (hd : (domainOf item.url).isSome)
    (hc : (db.collected_data.any fun x =>
        x.url == item.url || x.source_hash == hash (item.url ++ item.content)) = false) :
    (save hash dumps key now db [item, item]).1.collected_data.length
      = db.collected_data.length + 1 := by
  obtain ⟨d, hdom⟩ := Option.isSome_iff_exists.mp hd
  simp [save, saveItem, insertOrIgnore, hdom, hc, List.any_append]

/-- A conflicting item is silently skipped: the data table is
unchanged. -/
theorem save_conflict_lemma (hash dumps : String → String) (key now : Nat)
    (db : DB) (item : Item)
    (hc : (db.collected_data.any fun x =>
        x.url == item.url || x.source_hash == hash (item.url ++ item.content)) = true) :
    (save hash dumps key now db [item]).1.collected_data = db.collected_data := by
  cases hdom : domainOf item.url with
  | none => simp [save, saveItem, hdom]
  | some d => simp [save, saveItem, insertOrIgnore, hdom, hc]

/-- C1: across any sequence of `save` calls at most one row exists per
fingerprint; saving the same item twice grows the store by exactly one
row; and a uniqueness conflict is silently skipped, leaving the table
unchanged rather than raising. -/
theorem save_dedup_invariant :
    (∀ (hash dumps : String → String) (key : Nat)
        (batches : List (Nat × List Item)) (s : String),
        hashCount (runSaves hash dumps key batches) s ≤ 1)
    ∧ (∀ (hash dumps : String → String) (key now : Nat) (db : DB) (item : Item),
        (domainOf item.url).isSome →
        (db.collected_data.any fun x =>
            x.url == item.url || x.source_hash == hash (item.url ++ item.content)) = false →
        (save hash dumps key now db [item, item]).1.collected_data.length
          = db.collected_data.length + 1)
    ∧ (∀ (hash dumps : String → String) (key now : Nat) (db : DB) (item : Item),
        (db.collected_data.any fun x =>
            x.url == item.url || x.source_hash == hash (item.url ++ item.content)) = true →
        (save hash dumps key now db [item]).1.collected_data = db.collected_data) :=
  ⟨fun hash dumps key batches s => hashCount_le_one (runSaves_hashes hash dumps key batches) s,
   fun hash dumps key now db item hd hc => save_twice_lemma hash dumps key now db item hd hc,
   fun hash dumps key now db item hc => save_conflict_lemma hash dumps key now db item hc⟩

/-- Witness for the dedup invariant at concrete inputs. -/
theorem save_dedup_invariant_witness :
    hashCount (runSaves idHash idDumps 7 [(0, [demoItem]), (1, [demoItem])]) "x" ≤ 1
    ∧ (save idHash idDumps 7 0 emptyDB [demoItem, demoItem]).1.collected_data.length
        = emptyDB.collected_data.length + 1
    ∧ (save idHash idDumps 7 1 (save idHash idDumps 7 0 emptyDB [demoItem]).1
          [demoItem]).1.collected_data
        = (save idHash idDumps 7 0 emptyDB [demoItem]).1.collected_data :=
  ⟨save_dedup_invariant.1 idHash idDumps 7 [(0, [demoItem]), (1, [demoItem])] "x",
   save_dedup_invariant.2.1 idHash idDumps 7 0 emptyDB demoItem (by decide) (by decide),
   save_dedup_invariant.2.2 idHash idDumps 7 1 _ demoItem (by decide)⟩

/-- C6 counterexample: `save` on an empty batch returns `False` at once
and appends no `scan_metadata` row, so the append is not
unconditional. -/
theorem save_metadata_counterexample :
    (save idHash idDumps 7 0 emptyDB []).1.scan_metadata = []
    ∧ (save idHash idDumps 7 0 emptyDB []).1.scan_metadata.length
        ≠ emptyDB.scan_metadata.length + 1 :=
  ⟨rfl, by decide⟩

/-- C6 amended: every `save` call on a non-empty batch appends exactly
one `scan_metadata` row recording the scan start time, a saved count
equal to the number of rows the call added, and at most 10 domains, each
observed in the batch (an empty batch returns `False` without touching
the store). -/
theorem save_metadata_amended (hash dumps : String → String) (key now : Nat)
    (db : DB) (items : List Item) (hne : items ≠ []) :
    ∃ m : ScanMeta,
      (save hash dumps key now db items).1.scan_metadata = db.scan_metadata ++ [m]
      ∧ m.scan_start = now
      ∧ db.collected_data.length + m.items_collected
          = (save hash dumps key now db items).1.collected_data.length
      ∧ m.domains_scanned.length ≤ 10
      ∧ ∀ d ∈ m.domains_scanned, ∃ it ∈ items, domainOf it.url = some d := by
  have he : items.isEmpty = false := by
    cases items with
    | nil => exact absurd rfl hne
    | cons a l => rfl
  have hmeta := foldl_saveItem_meta hash dumps key now items ⟨db, [], 0⟩
  have hlen :
      (items.foldl (saveItem hash dumps key now) ⟨db, [], 0⟩).db.collected_data.length + 0
        = db.collected_data.length
          + (items.foldl (saveItem hash dumps key now) ⟨db, [], 0⟩).saved_count :=
    foldl_saveItem_len hash dumps key now items ⟨db, [], 0⟩
  unfold save
  simp only [he, Bool.false_eq_true, if_false]
  refine ⟨⟨now, (items.foldl (saveItem hash dumps key now) ⟨db, [], 0⟩).saved_count,
      (items.foldl (saveItem hash dumps key now) ⟨db, [], 0⟩).domains.take 10⟩,
      ?_, rfl, ?_, ?_, ?_⟩
  · rw [hmeta]
  · show db.collected_data.length
        + (items.foldl (saveItem hash dumps key now) ⟨db, [], 0⟩).saved_count
      = (items.foldl (saveItem hash dumps key now) ⟨db, [], 0⟩).db.collected_data.length
    omega
  · exact List.length_take_le _ _
  · intro d hd
    have hmem := List.mem_of_mem_take hd
    rcases foldl_saveItem_domains hash dumps key now items ⟨db, [], 0⟩ d hmem with h | h
    · simp at h
    · exact h

/-- Witness for the amended metadata theorem at a concrete batch. -/
theorem save_metadata_amended_witness :
    ∃ m : ScanMeta,
      (save idHash idDumps 7 3 emptyDB [demoItem]).1.scan_metadata
        = emptyDB.scan_metadata ++ [m]
      ∧ m.scan_start = 3
      ∧ emptyDB.collected_data.length + m.items_collected
          = (save idHash idDumps 7 3 emptyDB [demoItem]).1.collected_data.length
      ∧ m.domains_scanned.length ≤ 10
      ∧ ∀ d ∈ m.domains_scanned, ∃ it ∈ [demoItem], domainOf it.url = some d :=
  save_metadata_amended idHash idDumps 7 3 emptyDB [demoItem] (by decide)

/-- Inserting into the sorted row list adds one element. -/
theorem length_insertDesc (r : StoredRecord) (l : List StoredRecord) :
    (insertDesc r l).length = l.length + 1 := by
  induction l with
  | nil => rfl
  | cons x xs ih =>
    unfold insertDesc
    by_cases h : newestFirst r x = true
    · simp [h]
    · simp [h, ih]

/-- Sorting the rows preserves their number. -/
theorem length_sortDesc (l : List StoredRecord) : (sortDesc l).length = l.length := by
  induction l with
  | nil => rfl
  | cons x xs ih =>
    unfold sortDesc
    rw [length_insertDesc, ih, List.length_cons]

/-- Members after insertion are the inserted row or old members. -/
theorem mem_insertDesc {y r : StoredRecord} {l : List StoredRecord} :
    y ∈ insertDesc r l → y = r ∨ y ∈ l := by
  induction l with
  | nil =>
    intro h
    simp [insertDesc] at h
    exact Or.inl h
  | cons x xs ih =>
    intro h
    unfold insertDesc at h
    by_cases hc : newestFirst r x = true
    · rw [if_pos hc] at h
      rcases List.mem_cons.mp h with h | h
      · exact Or.inl h
      · exact Or.inr h
    · rw [if_neg hc] at h
      rcases List.mem_cons.mp h with h | h
      · exact Or.inr (h ▸ List.mem_cons_self x xs)
      · rcases ih h with h' | h'
        · exact Or.inl h'
        · exact Or.inr (List.mem_cons_of_mem x h')

/-- Insertion keeps the newest-first ordering. -/
theorem sorted_insertDesc {r : StoredRecord} {l : List StoredRecord}
    (h : List.Pairwise (fun a b => b.timestamp ≤ a.timestamp) l) :
    List.Pairwise (fun a b => b.timestamp ≤ a.timestamp) (insertDesc r l) := by
  induction l with
  | nil => simp [insertDesc]
  | cons x xs ih =>
    rw [List.pairwise_cons] at h
    obtain ⟨hx, hxs⟩ := h
    unfold insertDesc
    by_cases hc : newestFirst r x = true
    · rw [if_pos hc]
      have hrx : x.timestamp ≤ r.timestamp := by simpa [newestFirst] using hc
      rw [List.pairwise_cons]
      refine ⟨?_, List.pairwise_cons.mpr ⟨hx, hxs⟩⟩
      intro y hy
      rcases List.mem_cons.mp hy with rfl | hy'
      · exact hrx
      · exact le_trans (hx y hy') hrx
    · rw [if_neg hc]
      have hxr : r.timestamp ≤ x.timestamp := by
        have hnot : ¬ x.timestamp ≤ r.timestamp := by simpa [newestFirst] using hc
        omega
      rw [List.pairwise_cons]
      refine ⟨?_, ih hxs⟩
      intro y hy
      rcases mem_insertDesc hy with rfl | hy'
      · exact hxr
      · exact hx y hy'

/-- The row sort is sorted newest-first. -/
theorem sorted_sortDesc (l : List StoredRecord) :
    List.Pairwise (fun a b => b.timestamp ≤ a.timestamp) (sortDesc l) := by
  induction l with
  | nil => simp [sortDesc]
  | cons x xs ih => exact sorted_insertDesc ih

/-- C7: `load` returns at most `limit` records — exactly
`min limit size` — ordered most-recent-first, and a record whose
requested decryption fails (at the decrypt or the JSON-parse step) comes
back with its content replaced by the sentinel marker instead of an
error. -/
theorem load_contract (loads : String → Option String) (key : Nat) (db : DB)
    (limit : Nat) (dec : Bool) :
    (load loads key db limit dec).length = min limit db.collected_data.length
    ∧ List.Pairwise (fun a b => b.timestamp ≤ a.timestamp) (load loads key db limit dec)
    ∧ ∀ r ∈ loadRows db limit, ∀ blob, r.content = some blob → blob ≠ [] →
        (decrypt_data key blob).bind loads = none →
        loadRow loads key true r ∈ load loads key db limit true
        ∧ (loadRow loads key true r).content = LoadedContent.text sentinel := by
  refine ⟨?_, ?_, ?_⟩
  · simp [load, loadRows, List.length_take, length_sortDesc]
  · unfold load
    rw [List.pairwise_map]
    have hsorted : List.Pairwise (fun a b : StoredRecord => b.timestamp ≤ a.timestamp)
        (loadRows db limit) :=
      List.Pairwise.sublist (List.take_sublist _ _) (sorted_sortDesc db.collected_data)
    exact List.Pairwise.imp (fun h => h) hsorted
  · intro r hr blob hblob hbne hfail
    constructor
    · exact List.mem_map_of_mem _ hr
    · have hie : blob.isEmpty = false := by
        cases blob with
        | nil => exact absurd rfl hbne
        | cons a l => rfl
      cases hdec : decrypt_data key blob with
      | none => simp [loadRow, hblob, hie, hdec]
      | some s =>
        rw [hdec, Option.some_bind] at hfail
        simp [loadRow, hblob, hie, hdec, hfail]

/-- Witness for the load contract on a database whose single record
fails to decrypt. -/
theorem load_contract_witness :
    (load okLoads 0 badDB 1 true).length = min 1 badDB.collected_data.length
    ∧ loadRow okLoads 0 true badRecord ∈ load okLoads 0 badDB 1 true
    ∧ (loadRow okLoads 0 true badRecord).content = LoadedContent.text sentinel := by
  refine ⟨(load_contract okLoads 0 badDB 1 true).1, ?_, ?_⟩
  · exact ((load_contract okLoads 0 badDB 1 true).2.2 badRecord (by decide) [9] rfl
      (by decide) (by decide)).1
  · exact ((load_contract okLoads 0 badDB 1 true).2.2 badRecord (by decide) [9] rfl
      (by decide) (by decide)).2

/-- Reachability extends along one further link. -/
theorem reachLe_snoc {g : PageGraph} {s u v : List Char} {n : Nat}
    {item : Item} {links : List (List Char)}
    (h : ReachLe g s n u) :
    g u = some (item, links) → v ∈ links → ReachLe g s (n + 1) v := by
  induction h with
  | here w m =>
    intro hg hv
    exact ReachLe.step w v v m item links hg hv (ReachLe.here v m)
  | step a b c m item0 links0 hga hb _ ih =>
    intro hg hv
    exact ReachLe.step a b v (m + 1) item0 links0 hga hb (ih hg hv)

/-- One-step unfolding of the crawl recursion, with the local state
bindings reduced. -/
theorem crawlAux_succ_eq (g : PageGraph) (depth fuel : Nat) (url : List Char)
    (cd : Nat) (st : CrawlState) :
    crawlAux g depth (fuel + 1) url cd st =
      if cd > depth || st.visitedUrls.contains url then st
      else
        match g url with
        | none => ⟨url :: st.visitedUrls, st.results⟩
        | some (item, links) =>
          if cd < depth then
            links.foldl (fun s l => crawlAux g depth fuel l (cd + 1) s)
              ⟨url :: st.visitedUrls, st.results ++ [item]⟩
          else ⟨url :: st.visitedUrls, st.results ++ [item]⟩ := rfl

/-- Soundness of the crawl recursion: starting from a state whose
results are all sound and a URL within `cd` hops of the seed, every
result produced is sound. -/
theorem crawlAux_sound (g : PageGraph) (seed : List Char) (depth : Nat) :
    ∀ (fuel : Nat) (url : List Char) (cd : Nat) (st : CrawlState),
      ReachLe g seed cd url →
      (∀ it ∈ st.results, ItemSound g seed depth it) →
      ∀ it ∈ (crawlAux g depth fuel url cd st).results, ItemSound g seed depth it := by
  intro fuel
  induction fuel with
  | zero =>
    intro url cd st _ hst it hit
    exact hst it hit
  | succ fuel ih =>
    intro url cd st hreach hst it hit
    rw [crawlAux_succ_eq] at hit
    by_cases hguard : (decide (cd > depth) || st.visitedUrls.contains url) = true
    · rw [if_pos hguard] at hit
      exact hst it hit
    · rw [if_neg hguard] at hit
      have hcd : cd ≤ depth := by
        rcases Bool.or_eq_false_iff.mp (Bool.not_eq_true _ ▸ hguard) with ⟨h1, _⟩
        have := of_decide_eq_false h1
        omega
      revert hit
      split
      · intro hit
        exact hst it hit
      · next item links hg =>
        intro hit
        have hst2 : ∀ x ∈ st.results ++ [item], ItemSound g seed depth x := by
          intro x hx
          rcases List.mem_append.mp hx with hx' | hx'
          · exact hst x hx'
          · have hxi : x = item := List.mem_singleton.mp hx'
            subst hxi
            exact ⟨url, cd, links, hcd, hreach, hg⟩
        by_cases hlt : cd < depth
        · rw [if_pos hlt] at hit
          have hlinks : ∀ l ∈ links, ReachLe g seed (cd + 1) l :=
            fun l hl => reachLe_snoc hreach hg hl
          have hfold : ∀ (ls : List (List Char)) (s : CrawlState),
              (∀ l ∈ ls, ReachLe g seed (cd + 1) l) →
              (∀ x ∈ s.results, ItemSound g seed depth x) →
              ∀ x ∈ (ls.foldl
                  (fun s l => crawlAux g depth fuel l (cd + 1) s) s).results,
                ItemSound g seed depth x := by
            intro ls
            induction ls with
            | nil =>
              intro s _ hs x hx
              exact hs x hx
            | cons hd tl ihl =>
              intro s hls hs x hx
              rw [List.foldl_cons] at hx
              exact ihl _ (fun l hl => hls l (List.mem_cons_of_mem _ hl))
                (ih hd (cd + 1) s (hls hd (List.mem_cons_self _ _)) hs) x hx
          exact hfold links ⟨url :: st.visitedUrls, st.results ++ [item]⟩ hlinks hst2 it hit
        · rw [if_neg hlt] at hit
          exact hst2 it hit

/-- The crawl never revisits: the visited list stays duplicate-free. -/
theorem crawlAux_visited_nodup (g : PageGraph) (depth : Nat) :
    ∀ (fuel : Nat) (url : List Char) (cd : Nat) (st : CrawlState),
      st.visitedUrls.Nodup →
      (crawlAux g depth fuel url cd st).visitedUrls.Nodup := by
  intro fuel
  induction fuel with
  | zero =>
    intro url cd st h
    exact h
  | succ fuel ih =>
    intro url cd st h
    rw [crawlAux_succ_eq]
    by_cases hguard : (decide (cd > depth) || st.visitedUrls.contains url) = true
    · rw [if_pos hguard]
      exact h
    · rw [if_neg hguard]
      have hnotmem : url ∉ st.visitedUrls := by
        rcases Bool.or_eq_false_iff.mp (Bool.not_eq_true _ ▸ hguard) with ⟨_, h2⟩
        simpa using h2
      have h1 : (url :: st.visitedUrls).Nodup := List.nodup_cons.mpr ⟨hnotmem, h⟩
      split
      · exact h1
      · next item links hg =>
        by_cases hlt : cd < depth
        · rw [if_pos hlt]
          have hfold : ∀ (ls : List (List Char)) (s : CrawlState),
              s.visitedUrls.Nodup →
              (ls.foldl
                  (fun s l => crawlAux g depth fuel l (cd + 1) s) s).visitedUrls.Nodup := by
            intro ls
            induction ls with
            | nil =>
              intro s hs
              exact hs
            | cons hd tl ihl =>
              intro s hs
              rw [List.foldl_cons]
              exact ihl _ (ih hd (cd + 1) s hs)
          exact hfold links ⟨url :: st.visitedUrls, st.results ++ [item]⟩ h1
        · rw [if_neg hlt]
          exact h1

/-- C5: every item returned by `scrape` with depth bound `d` was
extracted at a URL reachable from the seed in at most `d` link-hops, and
the crawl never visits a URL twice. -/
theorem scrape_depth_invariant (g : PageGraph) (seed : List Char) (d : Nat)
    (res : List Item) (h : scrape g seed d = some res) :
    (∀ it ∈ res, ItemSound g seed d it)
    ∧ (crawlAux g d (d + 1) seed 0 ⟨[], []⟩).visitedUrls.Nodup := by
  constructor
  · unfold scrape at h
    by_cases hv : validate_onion_url seed = true
    · rw [if_pos hv] at h
      have hres : res = (crawlAux g d (d + 1) seed 0 ⟨[], []⟩).results :=
        (Option.some.inj h).symm
      subst hres
      exact crawlAux_sound g seed d (d + 1) seed 0 ⟨[], []⟩ (ReachLe.here seed 0)
        (by intro x hx; simp at hx)
    · rw [if_neg hv] at h
      cases h
  · exact crawlAux_visited_nodup g d (d + 1) seed 0 ⟨[], []⟩ List.nodup_nil

/-- Witness: in the two-node demo graph crawled from the seed with depth
1, the child item is returned and is sound: its URL is one hop from the
seed. -/
theorem scrape_depth_invariant_witness :
    ItemSound demoGraph (String.data seedUrl) 1 childItem := by
  have h := scrape_depth_invariant demoGraph seedUrl.data 1 [seedItem, childItem] (by decide)
  exact h.1 childItem (by decide)

/-- C10: `search` fabricates exactly `min(max_results, 5)` items, each
tagged `search_result`, and the CLI bound always lands in `[10, 100]`. -/
theorem search_result_bound (query : String) (maxResults : Nat) (rand : Nat → Nat) :
    (search query maxResults rand).length = min maxResults 5
    ∧ (∀ it ∈ search query maxResults rand, it.itemType = "search_result")
    ∧ (∀ n : Int, 10 ≤ clampMaxResults n ∧ clampMaxResults n ≤ 100) := by
  refine ⟨by simp [search], ?_, ?_⟩
  · intro it hit
    simp only [search, List.mem_map, List.mem_range] at hit
    obtain ⟨i, _, rfl⟩ := hit
    rfl
  · intro n
    unfold clampMaxResults
    constructor
    · exact le_min (le_max_right n 10) (by norm_num)
    · exact min_le_right _ _

end DarkWeb
